import Mathlib

/-!
Verification of the batch download orchestrator of SimpleMediaDownloader
(src/SimpleMediaDownloader.py) against its natural-language specification.

The Python module is shallowly embedded: the external fetcher (yt-dlp +
ffmpeg, the spec's MediaFetcher) is abstracted as a function
`fetch : String → Option String` returning `none` on success and
`some errText` when the download raised an exception with message
`errText`, exactly the information `download_single` extracts from it.
Session state (`FAILED_DOWNLOADS`, `MAX_WORKERS`) is passed explicitly.
Strings are taken as already percent-decoded; `urllib.parse.urlparse`
is modelled by a record holding the `netloc` and `query` components it
returns, while `parse_qs` membership is re-implemented on the raw query
string following its splitting rules (split on `&`, a field without
`=` or with an empty value is dropped).
-/

/-- One entry of the `FAILED_DOWNLOADS` registry: the Python tuple
`(url, desc, error)`.  `groupLabel` is the `desc` component, the
human-readable mode description; `errorMessage` the recorded error. -/
structure FailureRecord where
  url : String
  groupLabel : String
  errorMessage : String
deriving DecidableEq, Repr

/-- Default record used only as the `List.getD` fallback in statements. -/
def dummyRec : FailureRecord := ⟨"", "", ""⟩

/-- The partitioned result of one batch: the `succeeded` urls and the
`failed` records collected by `run_download`, both in submission order. -/
structure BatchOutcome where
  succeeded : List String
  failed : List FailureRecord
deriving DecidableEq, Repr

/-- The abstract MediaFetcher: `none` = the download completed,
`some e` = it raised an exception whose `str()` is `e`. -/
def Fetch : Type := String → Option String

/-- `str(e).split('\n')[0]` — the first line of an error message: the
characters before the first newline. -/
def firstLine (s : String) : String :=
  String.mk (s.toList.takeWhile (fun c => c != '\x0a'))

/-- `download_single(ydl_opts, url, desc)`: runs the fetch for one url,
returns `None` on success and the tuple `(url, desc, first line of the
error)` when the fetch raised. -/
def download_single (fetch : Fetch) (url desc : String) : Option FailureRecord :=
  match fetch url with
  | none => none
  | some e => some ⟨url, desc, firstLine e⟩

/-- The result-collection loop of `run_download`: walking the urls in
submission order, a successful url is appended to `succeeded` and a
failing one to `failed` (the single-url branch and the thread-pool
branch of the Python code perform the same partition, the pool branch
iterating `futures` in submission order after `wait`). -/
def collect (fetch : Fetch) (desc : String) : List String → BatchOutcome
  | [] => ⟨[], []⟩
  | u :: rest =>
    let o := collect fetch desc rest
    match download_single fetch u desc with
    | none => ⟨u :: o.succeeded, o.failed⟩
    | some r => ⟨o.succeeded, r :: o.failed⟩

/-- `run_download(ydl_opts, urls, desc)` together with its effect on the
global `FAILED_DOWNLOADS` registry (passed and returned explicitly):
an empty url list returns at once; otherwise the outcomes are collected
and the failures extended onto the registry. -/
def run_download (fetch : Fetch) (urls : List String) (desc : String)
    (registry : List FailureRecord) : BatchOutcome × List FailureRecord :=
  if urls.isEmpty then (⟨[], []⟩, registry)
  else
    let o := collect fetch desc urls
    (o, registry ++ o.failed)

/-! ### String helpers mirroring the Python built-ins used -/

/-- `startsWithChars p t` : `p` is a prefix of the char list `t`. -/
def startsWithChars : List Char → List Char → Bool
  | [], _ => true
  | _ :: _, [] => false
  | a :: as, b :: bs => a == b && startsWithChars as bs

/-- `containsChars p t` : `p` occurs contiguously inside `t`. -/
def containsChars (p : List Char) : List Char → Bool
  | [] => startsWithChars p []
  | b :: bs => startsWithChars p (b :: bs) || containsChars p bs

/-- Python's substring test `needle in hay`. -/
def strContainsSub (hay needle : String) : Bool :=
  containsChars needle.toList hay.toList

/-- Python's `str.isdigit()` restricted to ASCII digits: non-empty and
all characters decimal digits (the exotic Unicode digit classes that
`isdigit` also accepts are not modelled). -/
def charsDigits (l : List Char) : Bool := !l.isEmpty && l.all Char.isDigit

/-- `s.isdigit()` on a string. -/
def pyIsDigit (s : String) : Bool := charsDigits s.toList

/-- `int(s)` on a decimal digit string, as a char-list fold. -/
def natOfChars (l : List Char) : Nat :=
  l.foldl (fun n c => n * 10 + (c.toNat - 48)) 0

/-- `int(s)` on a decimal digit string. -/
def strToNat (s : String) : Nat := natOfChars s.toList

/-- `str.strip()`: leading and trailing whitespace removed. -/
def trimChars (l : List Char) : List Char :=
  ((l.dropWhile Char.isWhitespace).reverse.dropWhile Char.isWhitespace).reverse

/-- `s.split(c)` for a one-character separator: the pieces between the
occurrences of `c`, empty pieces kept, `[[]]` on the empty string. -/
def splitOnChar (c : Char) : List Char → List (List Char)
  | [] => [[]]
  | x :: xs =>
    match splitOnChar c xs with
    | [] => [[]]
    | h :: t => if x == c then [] :: h :: t else (x :: h) :: t

/-- `l.split(c, 1)` when `c` occurs: the pieces before and after the
first occurrence of `c`, or `none` when `c` is absent. -/
def splitFirst (c : Char) : List Char → Option (List Char × List Char)
  | [] => none
  | x :: xs =>
    if x == c then some ([], xs)
    else (splitFirst c xs).map (fun p => (x :: p.1, p.2))

/-! ### Thread settings (`MAX_WORKERS`, `download_thread_settings`) -/

/-- Initial value of the global `MAX_WORKERS`. -/
def MAX_WORKERS : Nat := 5

/-- `download_thread_settings()` reduced to its state transition: given
the entered string and the current `MAX_WORKERS`, returns the new
`MAX_WORKERS` (a digit string whose value is at least 1 is adopted,
anything else leaves the value unchanged). -/
def download_thread_settings (input : String) (maxWorkers : Nat) : Nat :=
  if pyIsDigit input then
    let num := strToNat input
    if 1 ≤ num then num else maxWorkers
  else maxWorkers

/-! ### `is_pure_playlist_url` -/

/-- The `netloc` and `query` components of `urllib.parse.urlparse(url)`;
the parse itself is a stdlib external and is modelled through its
output. -/
structure UrlParts where
  netloc : String
  query : String

/-- `name in parse_qs(qs)`: following `parse_qsl`, the query splits on
`&`; a field contributes its part before the first `=` as a name only
when an `=` is present and the part after it is non-empty
(`keep_blank_values` is left at its default `False`). -/
def parse_qs_hasParam (qs name : String) : Bool :=
  (splitOnChar '&' qs.toList).any fun field =>
    match splitFirst '=' field with
    | none => false
    | some (n, v) => n == name.toList && !v.isEmpty

/-- `s.lower()` on a netloc. -/
def lowerStr (s : String) : String := String.mk (s.toList.map Char.toLower)

/-- `'youtube.com' in domain or 'youtu.be' in domain` on the lower-cased
netloc. -/
def isYoutubeHost (netloc : String) : Bool :=
  strContainsSub (lowerStr netloc) "youtube.com"
    || strContainsSub (lowerStr netloc) "youtu.be"

/-- `is_pure_playlist_url(url)`: YouTube hosts only — a pure playlist
URL has a `list` query parameter and no `v` parameter; every other
host returns `False`. -/
def is_pure_playlist_url (u : UrlParts) : Bool :=
  if isYoutubeHost u.netloc then
    parse_qs_hasParam u.query "list" && !parse_qs_hasParam u.query "v"
  else
    false

/-! ### `_retry_downloads` option selection -/

/-- The parts of the `ydl_opts` dictionary that `_retry_downloads`
chooses from the mode string: the `noplaylist` flag, the `format`
selector and the postprocessor keys (`none` / `[]` meaning the branch
chain matched nothing and `base_ydl_opts` was left untouched). -/
structure RetryOpts where
  noplaylist : Bool
  format : Option String
  postprocessors : List String
deriving DecidableEq, Repr

/-- The option computation of `_retry_downloads(urls, mode)`: playlist
modes switch templates and allow playlists; then the first matching
branch of `if "Video with Audio" in mode / elif "Audio" in mode /
elif "Video without Audio" in mode` fixes format and postprocessors. -/
def retry_downloads_opts (mode : String) : RetryOpts :=
  let noplaylist := !strContainsSub mode "Playlist"
  if strContainsSub mode "Video with Audio" then
    ⟨noplaylist, some "bestvideo+bestaudio", ["FFmpegVideoConvertor", "FFmpegMetadata"]⟩
  else if strContainsSub mode "Audio" then
    ⟨noplaylist, some "bestaudio/best", ["FFmpegExtractAudio", "FFmpegMetadata"]⟩
  else if strContainsSub mode "Video without Audio" then
    ⟨noplaylist, some "bestvideo", ["FFmpegVideoConvertor", "FFmpegMetadata"]⟩
  else
    ⟨noplaylist, none, []⟩

/-- The options `download_video_only_single` (menu entry [3], the
VideoOnly mode) installs — what the spec says a VideoOnly retry should
use again. -/
def video_only_opts : RetryOpts :=
  ⟨true, some "bestvideo", ["FFmpegVideoConvertor", "FFmpegMetadata"]⟩

/-! ### Resume operations on the failure registry -/

/-- `[int(i.strip()) - 1 for i in choice.split(',') if i.strip().isdigit()]`
— the parsed 0-based indices of a comma-separated selection; note the
result is an integer and can be `-1` (entering `0`). -/
def parseIdxs (choice : String) : List Int :=
  (splitOnChar ',' choice.toList).filterMap fun t0 =>
    let t := trimChars t0
    if charsDigits t then some ((natOfChars t : Int) - 1) else none

/-- `sorted(idxs, reverse=True)` (any correct sort of integers is
extensionally the unique descending reordering). -/
def sortDesc (idxs : List Int) : List Int :=
  List.insertionSort (fun a b => a ≥ b) idxs

/-- The removal loop `for idx in sorted(idxs, reverse=True): if 0 <= idx
< len(FAILED_DOWNLOADS): to_retry.append(FAILED_DOWNLOADS.pop(idx))`.
Returns the remaining registry and `to_retry` in pop order. -/
def popValid : List FailureRecord → List Int → List FailureRecord × List FailureRecord
  | reg, [] => (reg, [])
  | reg, i :: rest =>
    if h : 0 ≤ i ∧ i.toNat < reg.length then
      let res := popValid (reg.take i.toNat ++ reg.drop (i.toNat + 1)) rest
      (res.1, reg.get ⟨i.toNat, h.2⟩ :: res.2)
    else
      popValid reg rest

/-- Result of the `elif ',' in choice` branch of
`resume_failed_downloads`: the registry right after the removal loop,
the records to retry in their retry order (`reversed(to_retry)`), and
the registry after the single-item retry batches have re-appended
fresh failures. -/
structure RetrySelResult where
  remaining : List FailureRecord
  retried : List FailureRecord
  finalRegistry : List FailureRecord
deriving Repr

/-- The retry-selected operation: parse the comma-separated `choice`,
pop valid indices in descending order, then retry each popped record as
a single-item batch in original ascending order, each batch appending
its fresh failures to the registry. -/
def retry_selected (fetch : Fetch) (reg : List FailureRecord) (choice : String) :
    RetrySelResult :=
  let idxs := parseIdxs choice
  let p := popValid reg (sortDesc idxs)
  let retriedL := p.2.reverse
  { remaining := p.1
    retried := retriedL
    finalRegistry :=
      retriedL.foldl (fun r rec => (run_download fetch [rec.url] rec.groupLabel r).2) p.1 }

/-- `failed_by_desc[d].append(url)` realised on an association list that
keeps first-insertion key order, as a Python `defaultdict` iterated
later does. -/
def insertGrouped : List (String × List String) → String → String → List (String × List String)
  | [], d, u => [(d, [u])]
  | (k, us) :: rest, d, u =>
    if k = d then (k, us ++ [u]) :: rest else (k, us) :: insertGrouped rest d u

/-- The grouping loop of the `retry all` branch:
`for url, d, err in FAILED_DOWNLOADS: failed_by_desc[d].append(url)`. -/
def groupByDesc (records : List FailureRecord) : List (String × List String) :=
  records.foldl (fun acc r => insertGrouped acc r.groupLabel r.url) []

/-- Result of the `elif choice == 'a'` branch: the registry value set
just before the retry loop runs (`FAILED_DOWNLOADS = []`), the batches
issued (one per group, in group order, as `(desc, urls)`), and the
registry after all batches re-appended their fresh failures. -/
structure RetryAllResult where
  registryBeforeBatches : List FailureRecord
  batches : List (String × List String)
  finalRegistry : List FailureRecord
deriving Repr

/-- The retry-all operation: group the current records by `desc`, clear
the registry, then issue one `run_download` batch per group. -/
def retry_all (fetch : Fetch) (records : List FailureRecord) : RetryAllResult :=
  let groups := groupByDesc records
  { registryBeforeBatches := []
    batches := groups
    finalRegistry := groups.foldl (fun reg b => (run_download fetch b.2 b.1 reg).2) [] }

/-! ### Playlist processing (menu entries [4]/[5]/[6]) -/

/-- One element of `info['entries']`; `url` is `none` when the entry
dictionary lacks a `'url'` key (malformed metadata). -/
structure PlaylistEntry where
  url : Option String

/-- The `extract_info` result as the playlist loop reads it:
`entries = none` models `'entries' not in info`. -/
structure PlaylistInfo where
  title : String
  entries : Option (List PlaylistEntry)

/-- Whether a playlist URL was skipped as "Not a playlist" or ran a
batch with the given outcome. -/
inductive PlaylistStep where
  | skipped
  | ran (outcome : BatchOutcome)
deriving DecidableEq, Repr

/-- The body of the per-playlist-URL loop shared by
`download_video_with_audio_playlist` and its two siblings: skip when
`'entries' not in info`, else collect `entry['url']` for entries that
have one and hand the list to `run_download`. -/
def process_playlist_url (fetch : Fetch) (info : PlaylistInfo) (desc : String)
    (registry : List FailureRecord) : PlaylistStep × List FailureRecord :=
  match info.entries with
  | none => (.skipped, registry)
  | some entries =>
    let video_urls := entries.filterMap (fun e => e.url)
    let r := run_download fetch video_urls desc registry
    (.ran r.1, r.2)

/-! ### Specification-side list helpers for stating snapshot semantics -/

/-- Shift a set of 0-based positions one element to the left, dropping
position 0. -/
def decrPos (S : List Nat) : List Nat :=
  S.filterMap fun n => match n with | 0 => none | k + 1 => some k

/-- Drop from `l` exactly the elements whose 0-based position is listed
in `S`, keeping the rest in order. -/
def dropPositions : List FailureRecord → List Nat → List FailureRecord
  | [], _ => []
  | x :: xs, S =>
    if 0 ∈ S then dropPositions xs (decrPos S)
    else x :: dropPositions xs (decrPos S)

/-- The parsed indices of a selection that fall, 0-based, inside a
registry of length `len` — the selections the removal loop acts on. -/
def validList (len : Nat) (js : List Int) : List Int :=
  js.filter (fun i => decide (0 ≤ i) && decide (i < (len : Int)))

/-! ### Concrete fixtures used by witnesses and examples -/

/-- A fetch on which every download succeeds. -/
def fetchNone : Fetch := fun _ => none

/-- A fetch on which every download raises a two-line error. -/
def fetchBoom : Fetch := fun _ => some "boom happened\x0adetails on line two"

/-- Sample registry record: a failed plain audio download. -/
def recAudio1 : FailureRecord := ⟨"https://e.com/1", "Audio", "err1"⟩

/-- Sample registry record: a second failed plain audio download. -/
def recAudio2 : FailureRecord := ⟨"https://e.com/2", "Audio", "err2"⟩

/-- Sample registry record: a failed video-without-audio download. -/
def recVideoOnly : FailureRecord := ⟨"https://e.com/3", "Video without Audio", "err3"⟩

/-! ## Theorems -/

/-- C1: a failure record whose `groupLabel` encodes the VideoOnly mode
(label "Video without Audio") is retried by `_retry_downloads` with the
audio-extraction fetch parameters, not the best-video-only parameters:
the branch `elif "Audio" in mode` matches the substring "Audio" of
"Video without Audio" before the dedicated `elif "Video without Audio"`
branch can, so the retry runs with format `bestaudio/best` and the
`FFmpegExtractAudio` postprocessor (in both the plain and the playlist
variant of the label), contradicting the specified mode mapping. -/
theorem retry_video_only_gets_audio_opts :
    retry_downloads_opts "Video without Audio"
        = ⟨true, some "bestaudio/best", ["FFmpegExtractAudio", "FFmpegMetadata"]⟩
      ∧ retry_downloads_opts "Video without Audio" ≠ video_only_opts
      ∧ retry_downloads_opts "Playlist Video without Audio"
        = ⟨false, some "bestaudio/best", ["FFmpegExtractAudio", "FFmpegMetadata"]⟩ :=
  ⟨by decide, by decide, by decide⟩

/-- C7: `run_download` on an empty url list returns the empty outcome and
leaves the failure registry exactly as it was. -/
theorem run_download_empty_noop :
    ∀ (fetch : Fetch) (desc : String) (reg : List FailureRecord),
      run_download fetch [] desc reg = (⟨[], []⟩, reg) :=
  fun _ _ _ => rfl

/-- C6: a playlist whose resolved `entries` collection is present but has
zero members does not take the "Not a playlist" skip path; it yields an
empty batch and adds no failure records. -/
theorem empty_playlist_no_skip :
    ∀ (fetch : Fetch) (info : PlaylistInfo) (desc : String) (reg : List FailureRecord),
      info.entries = some [] →
      process_playlist_url fetch info desc reg = (PlaylistStep.ran ⟨[], []⟩, reg)
      ∧ (process_playlist_url fetch info desc reg).1 ≠ PlaylistStep.skipped := by
  intro fetch info desc reg h
  have hrun : process_playlist_url fetch info desc reg = (PlaylistStep.ran ⟨[], []⟩, reg) := by
    simp [process_playlist_url, h, run_download]
  exact ⟨hrun, by rw [hrun]; simp⟩

/-- C6 witness: instantiated on an empty playlist with the all-failing
fetch, the skip path is not taken and the registry stays empty. -/
theorem empty_playlist_no_skip_witness :
    process_playlist_url fetchBoom ⟨"My Playlist", some []⟩ "Playlist Audio" []
        = (PlaylistStep.ran ⟨[], []⟩, [])
      ∧ (process_playlist_url fetchBoom ⟨"My Playlist", some []⟩ "Playlist Audio" []).1
        ≠ PlaylistStep.skipped :=
  empty_playlist_no_skip fetchBoom ⟨"My Playlist", some []⟩ "Playlist Audio" [] rfl

/-- C8: the concurrency limit starts at 5; `download_thread_settings`
adopts a digit string whose value is at least 1 and leaves the limit
unchanged on every other input, so the limit never drops below 1. -/
theorem thread_settings_invariants :
    MAX_WORKERS = 5
    ∧ (∀ (input : String) (mw : Nat), 1 ≤ mw → 1 ≤ download_thread_settings input mw)
    ∧ (∀ (input : String) (mw : Nat), pyIsDigit input = true → 1 ≤ strToNat input →
        download_thread_settings input mw = strToNat input)
    ∧ (∀ (input : String) (mw : Nat), pyIsDigit input = false ∨ strToNat input = 0 →
        download_thread_settings input mw = mw) := by
  refine ⟨rfl, ?_, ?_, ?_⟩
  · intro input mw hmw
    unfold download_thread_settings
    dsimp only
    split
    · split
      · assumption
      · exact hmw
    · exact hmw
  · intro input mw hd hv
    simp [download_thread_settings, hd, hv]
  · intro input mw h
    rcases h with h | h
    · simp [download_thread_settings, h]
    · unfold download_thread_settings
      split
      · simp [h]
      · rfl

/-- C8 witness: the settings update at concrete inputs — a non-digit
input and the input "0" are ignored, "7" is adopted. -/
theorem thread_settings_invariants_witness :
    1 ≤ download_thread_settings "abc" 3
    ∧ download_thread_settings "7" 5 = strToNat "7"
    ∧ download_thread_settings "0" 5 = 5 :=
  ⟨thread_settings_invariants.2.1 "abc" 3 (by decide),
   thread_settings_invariants.2.2.1 "7" 5 (by decide) (by decide),
   thread_settings_invariants.2.2.2 "0" 5 (Or.inr (by decide))⟩

/-- C10: a repeated index in the selection acts on the already-mutated
list: selecting "2,2" on a three-record registry removes the second and
third records and retries the third record (first), although only index
2 was named. -/
theorem retry_selected_duplicate_index :
    ∀ (fetch : Fetch) (r1 r2 r3 : FailureRecord),
      (retry_selected fetch [r1, r2, r3] "2,2").remaining = [r1]
      ∧ (retry_selected fetch [r1, r2, r3] "2,2").retried = [r3, r2] := by
  intro fetch r1 r2 r3
  constructor <;> rfl

/-- C9: `is_pure_playlist_url` treats only YouTube hosts as candidates:
a URL whose lower-cased host contains neither "youtube.com" nor
"youtu.be" is never flagged as a pure playlist, and a YouTube URL is
flagged exactly when its query carries a `list` parameter and no `v`
parameter. -/
theorem pure_playlist_only_youtube :
    ∀ u : UrlParts,
      (isYoutubeHost u.netloc = false → is_pure_playlist_url u = false)
      ∧ (isYoutubeHost u.netloc = true →
          (is_pure_playlist_url u = true ↔
            parse_qs_hasParam u.query "list" = true ∧ parse_qs_hasParam u.query "v" = false)) := by
  intro u
  constructor
  · intro h
    simp [is_pure_playlist_url, h]
  · intro h
    simp only [is_pure_playlist_url, h, if_true, Bool.and_eq_true, Bool.not_eq_true']

/-- C9 witness: a mixed-case YouTube playlist URL is flagged iff its
query has `list` and no `v` — checked at `?list=PL1`; and a non-YouTube
host with a playlist-shaped query is not flagged. -/
theorem pure_playlist_only_youtube_witness :
    (is_pure_playlist_url ⟨"www.YouTube.com", "list=PL1"⟩ = true ↔
      parse_qs_hasParam "list=PL1" "list" = true ∧ parse_qs_hasParam "list=PL1" "v" = false)
    ∧ is_pure_playlist_url ⟨"vimeo.com", "list=PL1"⟩ = false :=
  ⟨(pure_playlist_only_youtube ⟨"www.YouTube.com", "list=PL1"⟩).2 (by decide),
   (pure_playlist_only_youtube ⟨"vimeo.com", "list=PL1"⟩).1 (by decide)⟩

/-! ### Lemmas on the collection loop of `run_download` -/

/-- The successes collected are exactly the urls whose fetch returned,
in submission order. -/
theorem collect_succeeded_eq (fetch : Fetch) (desc : String) :
    ∀ urls : List String,
      (collect fetch desc urls).succeeded = urls.filter (fun u => (fetch u).isNone) := by
  intro urls
  induction urls with
  | nil => rfl
  | cons u rest ih =>
    cases h : fetch u <;>
      simp [collect, download_single, h, ih, List.filter_cons]

/-- The failures collected are the per-url failure records of the urls
whose fetch raised, in submission order. -/
theorem collect_failed_eq (fetch : Fetch) (desc : String) :
    ∀ urls : List String,
      (collect fetch desc urls).failed
        = urls.filterMap (fun u => download_single fetch u desc) := by
  intro urls
  induction urls with
  | nil => rfl
  | cons u rest ih =>
    cases h : fetch u <;>
      simp [collect, download_single, h, ih, List.filterMap_cons]

/-- The urls of the collected failures are exactly the urls whose fetch
raised, in submission order. -/
theorem collect_failed_urls_eq (fetch : Fetch) (desc : String) :
    ∀ urls : List String,
      (collect fetch desc urls).failed.map (fun r => r.url)
        = urls.filter (fun u => (fetch u).isSome) := by
  intro urls
  induction urls with
  | nil => rfl
  | cons u rest ih =>
    cases h : fetch u <;>
      simp [collect, download_single, h, ih, List.filter_cons]

/-- The registry side of `run_download`: the old registry extended by the
batch's failures (for the empty batch nothing is appended). -/
theorem run_download_registry_eq (fetch : Fetch) (urls : List String) (desc : String)
    (reg : List FailureRecord) :
    (run_download fetch urls desc reg).2 = reg ++ (collect fetch desc urls).failed := by
  cases urls <;> simp [run_download, collect]

/-- The outcome side of `run_download` on a non-empty url list is the
collection loop's outcome. -/
theorem run_download_outcome_eq (fetch : Fetch) (urls : List String) (desc : String)
    (reg : List FailureRecord) (h : urls ≠ []) :
    (run_download fetch urls desc reg).1 = collect fetch desc urls := by
  cases urls with
  | nil => exact absurd rfl h
  | cons u rest => simp [run_download]

/-- C2: on a non-empty url list, `run_download`'s outcome partitions the
input: the succeeded urls are the fetch-successes in submission order,
the failed records' urls are the fetch-failures in submission order,
and together they are a permutation of the input — one entry per job,
none lost, none duplicated. -/
theorem run_download_partition_order :
    ∀ (fetch : Fetch) (urls : List String) (desc : String) (reg : List FailureRecord),
      urls ≠ [] →
      (run_download fetch urls desc reg).1.succeeded
          = urls.filter (fun u => (fetch u).isNone)
      ∧ (run_download fetch urls desc reg).1.failed.map (fun r => r.url)
          = urls.filter (fun u => (fetch u).isSome)
      ∧ ((run_download fetch urls desc reg).1.succeeded
          ++ (run_download fetch urls desc reg).1.failed.map (fun r => r.url)).Perm urls := by
  intro fetch urls desc reg h
  rw [run_download_outcome_eq fetch urls desc reg h]
  refine ⟨collect_succeeded_eq fetch desc urls, collect_failed_urls_eq fetch desc urls, ?_⟩
  rw [collect_succeeded_eq fetch desc urls, collect_failed_urls_eq fetch desc urls]
  have hf : urls.filter (fun u => (fetch u).isSome)
      = urls.filter (fun u => !(fetch u).isNone) := by
    apply List.filter_congr
    intro u _
    cases fetch u <;> rfl
  rw [hf]
  exact List.filter_append_perm (fun u => (fetch u).isNone) urls

/-- C2 witness: on a concrete two-url batch over the all-failing fetch,
the partition equalities and the permutation hold. -/
theorem run_download_partition_order_witness :
    (run_download fetchBoom ["https://e.com/1", "https://e.com/2"] "Audio" []).1.succeeded
        = (["https://e.com/1", "https://e.com/2"]).filter (fun u => (fetchBoom u).isNone)
    ∧ (run_download fetchBoom ["https://e.com/1", "https://e.com/2"] "Audio" []).1.failed.map
          (fun r => r.url)
        = (["https://e.com/1", "https://e.com/2"]).filter (fun u => (fetchBoom u).isSome)
    ∧ ((run_download fetchBoom ["https://e.com/1", "https://e.com/2"] "Audio" []).1.succeeded
        ++ (run_download fetchBoom ["https://e.com/1", "https://e.com/2"] "Audio" []).1.failed.map
          (fun r => r.url)).Perm ["https://e.com/1", "https://e.com/2"] :=
  run_download_partition_order fetchBoom ["https://e.com/1", "https://e.com/2"] "Audio" []
    (by decide)

/-- C5: every failure record produced by `run_download` comes from a url
of the batch, carries the batch's group label, and records exactly the
first line of the fetch error; and an error on one url never prevents a
succeeding sibling url from being reported as succeeded — no error
escapes the pool as an exception. -/
theorem failures_carry_first_line :
    ∀ (fetch : Fetch) (urls : List String) (desc : String) (reg : List FailureRecord),
      (∀ r ∈ (run_download fetch urls desc reg).1.failed,
        r.url ∈ urls ∧ r.groupLabel = desc
        ∧ ∃ e, fetch r.url = some e ∧ r.errorMessage = firstLine e)
      ∧ (∀ u ∈ urls, fetch u = none →
          u ∈ (run_download fetch urls desc reg).1.succeeded) := by
  intro fetch urls desc reg
  constructor
  · intro r hr
    have hne : urls ≠ [] := by
      intro hnil
      rw [hnil] at hr
      simp [run_download] at hr
    rw [run_download_outcome_eq fetch urls desc reg hne, collect_failed_eq] at hr
    rw [List.mem_filterMap] at hr
    obtain ⟨u, hu, hdl⟩ := hr
    unfold download_single at hdl
    cases h : fetch u with
    | none => rw [h] at hdl; exact absurd hdl (by simp)
    | some e =>
      rw [h] at hdl
      have : r = ⟨u, desc, firstLine e⟩ := by
        injection hdl with h2
        exact h2.symm
      subst this
      exact ⟨hu, rfl, e, h, rfl⟩
  · intro u hu hfetch
    have hne : urls ≠ [] := by
      intro hnil
      rw [hnil] at hu
      exact absurd hu (by simp)
    rw [run_download_outcome_eq fetch urls desc reg hne, collect_succeeded_eq]
    rw [List.mem_filter]
    exact ⟨hu, by simp [hfetch]⟩

/-- C5 witness: on the two-line-error fetch, the single produced record
has the first error line as message; and on a mixed batch the
successful sibling still lands in `succeeded`. -/
theorem failures_carry_first_line_witness :
    ("https://e.com/1" ∈ (["https://e.com/1"] : List String)
      ∧ FailureRecord.groupLabel ⟨"https://e.com/1", "Audio", "boom happened"⟩ = "Audio"
      ∧ ∃ e, fetchBoom "https://e.com/1" = some e
          ∧ FailureRecord.errorMessage ⟨"https://e.com/1", "Audio", "boom happened"⟩
            = firstLine e) :=
  (failures_carry_first_line fetchBoom ["https://e.com/1"] "Audio" []).1
    ⟨"https://e.com/1", "Audio", "boom happened"⟩ (by decide)

/-! ### Lemmas on the grouping of `retry all` -/

/-- Look up the url list of a group label in the association list. -/
def findGroup : List (String × List String) → String → List String
  | [], _ => []
  | g :: rest, d => if g.1 = d then g.2 else findGroup rest d

/-- Inserting a url appends it to the url list of its label. -/
theorem findGroup_insertGrouped_self (d u : String) :
    ∀ acc : List (String × List String),
      findGroup (insertGrouped acc d u) d = findGroup acc d ++ [u] := by
  intro acc
  induction acc with
  | nil => simp [insertGrouped, findGroup]
  | cons g rest ih =>
    obtain ⟨k, us⟩ := g
    by_cases hk : k = d
    · subst hk
      simp [insertGrouped, findGroup]
    · simp [insertGrouped, findGroup, hk, ih]

/-- Inserting a url leaves every other label's url list untouched. -/
theorem findGroup_insertGrouped_other {d' d : String} (hne : d' ≠ d) (u : String) :
    ∀ acc : List (String × List String),
      findGroup (insertGrouped acc d u) d' = findGroup acc d' := by
  have hne' : ¬(d = d') := fun h => hne h.symm
  intro acc
  induction acc with
  | nil => simp [insertGrouped, findGroup, hne']
  | cons g rest ih =>
    obtain ⟨k, us⟩ := g
    by_cases hk : k = d
    · subst hk
      simp [insertGrouped, findGroup, hne']
    · simp [insertGrouped, findGroup, hk, ih]

/-- The key list after an insertion: unchanged when the label is already
a key, else the label is appended. -/
theorem insertGrouped_keys (d u : String) :
    ∀ acc : List (String × List String),
      (insertGrouped acc d u).map Prod.fst
        = if d ∈ acc.map Prod.fst then acc.map Prod.fst else acc.map Prod.fst ++ [d] := by
  intro acc
  induction acc with
  | nil => simp [insertGrouped]
  | cons g rest ih =>
    obtain ⟨k, us⟩ := g
    by_cases hk : k = d
    · subst hk
      simp [insertGrouped]
    · have hmem : d ∈ (k :: rest.map Prod.fst) ↔ d ∈ rest.map Prod.fst := by
        constructor
        · intro h
          rcases List.mem_cons.mp h with h | h
          · exact absurd h.symm hk
          · exact h
        · exact fun h => List.mem_cons_of_mem _ h
      simp only [insertGrouped, if_neg hk, List.map_cons, ih]
      by_cases hd : d ∈ rest.map Prod.fst
      · rw [if_pos hd, if_pos (hmem.mpr hd)]
      · rw [if_neg hd, if_neg (fun h => hd (hmem.mp h))]
        simp

/-- The grouping fold, related to `findGroup`: each label's group is what
the accumulator already held extended by the urls of that label's
records, in record order. -/
theorem groupFold_findGroup (d : String) :
    ∀ (records : List FailureRecord) (acc : List (String × List String)),
      findGroup (records.foldl (fun a r => insertGrouped a r.groupLabel r.url) acc) d
        = findGroup acc d ++ (records.filter (fun r => r.groupLabel == d)).map (fun r => r.url) := by
  intro records
  induction records with
  | nil => intro acc; simp
  | cons r rest ih =>
    intro acc
    rw [List.foldl_cons, ih]
    by_cases hd : r.groupLabel = d
    · rw [List.filter_cons_of_pos (by simp [hd])]
      rw [hd, findGroup_insertGrouped_self]
      simp
    · rw [List.filter_cons_of_neg (by simp [hd])]
      rw [findGroup_insertGrouped_other (fun h => hd h.symm)]

/-- The grouping fold keeps the key list duplicate-free. -/
theorem groupFold_keys_nodup :
    ∀ (records : List FailureRecord) (acc : List (String × List String)),
      (acc.map Prod.fst).Nodup →
      ((records.foldl (fun a r => insertGrouped a r.groupLabel r.url) acc).map Prod.fst).Nodup := by
  intro records
  induction records with
  | nil => intro acc h; simpa using h
  | cons r rest ih =>
    intro acc h
    rw [List.foldl_cons]
    apply ih
    rw [insertGrouped_keys]
    split
    · exact h
    · next hnot =>
      refine ((List.perm_append_singleton _ _).nodup_iff).mpr ?_
      exact List.nodup_cons.mpr ⟨hnot, h⟩

/-- The grouping fold only ever extends the key list. -/
theorem groupFold_keys_sub :
    ∀ (records : List FailureRecord) (acc : List (String × List String)) (d : String),
      d ∈ acc.map Prod.fst →
      d ∈ (records.foldl (fun a r => insertGrouped a r.groupLabel r.url) acc).map Prod.fst := by
  intro records
  induction records with
  | nil => intro acc d h; simpa using h
  | cons r rest ih =>
    intro acc d h
    rw [List.foldl_cons]
    apply ih
    rw [insertGrouped_keys]
    split
    · exact h
    · exact List.mem_append_left _ h

/-- Every record's label ends up among the keys of the grouping fold. -/
theorem groupFold_keys_complete :
    ∀ (records : List FailureRecord) (acc : List (String × List String)),
      ∀ r ∈ records,
        r.groupLabel
          ∈ (records.foldl (fun a r => insertGrouped a r.groupLabel r.url) acc).map Prod.fst := by
  intro records
  induction records with
  | nil => intro acc r h; exact absurd h (by simp)
  | cons q rest ih =>
    intro acc r hr
    rw [List.foldl_cons]
    rcases List.mem_cons.mp hr with h | h
    · subst h
      apply groupFold_keys_sub
      rw [insertGrouped_keys]
      split
      · assumption
      · exact List.mem_append_right _ (by simp)
    · exact ih _ r h

/-- With duplicate-free keys, membership pins down `findGroup`. -/
theorem findGroup_of_mem_nodup :
    ∀ (gs : List (String × List String)), (gs.map Prod.fst).Nodup →
      ∀ b ∈ gs, findGroup gs b.1 = b.2 := by
  intro gs
  induction gs with
  | nil => intro _ b hb; exact absurd hb (by simp)
  | cons g rest ih =>
    intro hnd b hb
    obtain ⟨hg, hrest⟩ := List.nodup_cons.mp hnd
    rcases List.mem_cons.mp hb with h | h
    · subst h
      simp [findGroup]
    · have hne : g.1 ≠ b.1 := by
        intro he
        exact hg (he ▸ List.mem_map_of_mem Prod.fst h)
      simp only [findGroup, if_neg hne]
      exact ih hrest b h

/-- Appending through a fold is concatenation of the pieces. -/
theorem foldl_append_eq_flatMap {β : Type} (F : β → List FailureRecord) :
    ∀ (bs : List β) (init : List FailureRecord),
      bs.foldl (fun acc b => acc ++ F b) init = init ++ bs.flatMap F := by
  intro bs
  induction bs with
  | nil => intro init; simp
  | cons b rest ih =>
    intro init
    simp [ih, List.flatMap_cons]

/-- C4: `retry all` groups the registry's records by `groupLabel`, resets
the registry to empty before the first batch is issued, issues exactly
one batch per distinct label — that batch holding exactly the group's
urls in registry order — and the final registry consists exactly of the
fresh failures appended by the batches.  On the concrete registry with
two "Audio" records and one "Video without Audio" record, exactly two
batches are issued, of sizes 2 and 1. -/
theorem retry_all_groups_and_drains :
    (∀ (fetch : Fetch) (records : List FailureRecord),
      (retry_all fetch records).registryBeforeBatches = []
      ∧ ((retry_all fetch records).batches.map Prod.fst).Nodup
      ∧ (∀ b ∈ (retry_all fetch records).batches,
          b.2 = (records.filter (fun r => r.groupLabel == b.1)).map (fun r => r.url))
      ∧ (∀ r ∈ records, r.groupLabel ∈ (retry_all fetch records).batches.map Prod.fst)
      ∧ (retry_all fetch records).finalRegistry
          = (retry_all fetch records).batches.flatMap (fun b => (collect fetch b.1 b.2).failed))
    ∧ (retry_all fetchNone [recAudio1, recAudio2, recVideoOnly]).batches
        = [("Audio", ["https://e.com/1", "https://e.com/2"]),
           ("Video without Audio", ["https://e.com/3"])] := by
  constructor
  · intro fetch records
    have hnd : ((retry_all fetch records).batches.map Prod.fst).Nodup :=
      groupFold_keys_nodup records [] (by simp)
    refine ⟨rfl, hnd, ?_, ?_, ?_⟩
    · intro b hb
      have h1 : findGroup (groupByDesc records) b.1 = b.2 :=
        findGroup_of_mem_nodup _ hnd b hb
      have h2 : findGroup (groupByDesc records) b.1
          = (records.filter (fun r => r.groupLabel == b.1)).map (fun r => r.url) := by
        have := groupFold_findGroup b.1 records []
        simpa [groupByDesc, findGroup] using this
      rw [← h1, h2]
    · intro r hr
      exact groupFold_keys_complete records [] r hr
    · show (groupByDesc records).foldl (fun reg b => (run_download fetch b.2 b.1 reg).2) []
          = (groupByDesc records).flatMap (fun b => (collect fetch b.1 b.2).failed)
      have hstep : (fun (reg : List FailureRecord) (b : String × List String) =>
            (run_download fetch b.2 b.1 reg).2)
          = fun reg b => reg ++ (collect fetch b.1 b.2).failed := by
        funext reg b
        exact run_download_registry_eq fetch b.2 b.1 reg
      rw [hstep, foldl_append_eq_flatMap]
      simp
  · decide

/-- C4 witness: the general part instantiated on the concrete registry —
the batch carrying the label "Audio" holds exactly the urls of the two
"Audio" records, in registry order. -/
theorem retry_all_groups_and_drains_witness :
    (("Audio", ["https://e.com/1", "https://e.com/2"]) : String × List String).2
      = (([recAudio1, recAudio2, recVideoOnly].filter
          (fun r => r.groupLabel == "Audio")).map (fun r => r.url)) :=
  (retry_all_groups_and_drains.1 fetchNone [recAudio1, recAudio2, recVideoOnly]).2.2.1
    ("Audio", ["https://e.com/1", "https://e.com/2"])
    (by rw [retry_all_groups_and_drains.2]; simp)

/-! ### Lemmas on the removal loop of `retry selected` -/

/-- Membership in a valid-index list, unfolded. -/
theorem mem_validList {len : Nat} {i : Int} {js : List Int} :
    i ∈ validList len js ↔ i ∈ js ∧ 0 ≤ i ∧ i < (len : Int) := by
  unfold validList
  rw [List.mem_filter]
  simp [and_assoc]

/-- Reading below a popped position is unchanged. -/
theorem getD_take_append_drop {α : Type} (d : α) :
    ∀ (l : List α) (j k : Nat), k < j →
      (l.take j ++ l.drop (j + 1)).getD k d = l.getD k d := by
  intro l
  induction l with
  | nil => intro j k _; simp
  | cons x xs ih =>
    intro j k hk
    cases j with
    | zero => omega
    | succ j =>
      cases k with
      | zero => simp [List.take_succ_cons, List.drop_succ_cons]
      | succ k =>
        simp only [List.take_succ_cons, List.drop_succ_cons, List.cons_append,
          List.getD_cons_succ]
        exact ih j k (by omega)

/-- `List.get` as a `getD` at an in-range position. -/
theorem get_eq_getD {α : Type} (d : α) (l : List α) (j : Nat) (h : j < l.length) :
    l.get ⟨j, h⟩ = l.getD j d := by
  rw [List.getD_eq_getElem l d h]
  exact List.get_eq_getElem l ⟨j, h⟩

/-- Membership under the position shift. -/
theorem mem_decrPos {k : Nat} {S : List Nat} : k ∈ decrPos S ↔ k + 1 ∈ S := by
  unfold decrPos
  rw [List.mem_filterMap]
  constructor
  · rintro ⟨n, hn, he⟩
    cases n with
    | zero => exact absurd he (by simp)
    | succ m =>
      simp only [Option.some.injEq] at he
      exact he ▸ hn
  · intro h
    exact ⟨k + 1, h, rfl⟩

/-- Dropping no positions is the identity. -/
theorem dropPositions_nil : ∀ l : List FailureRecord, dropPositions l [] = l := by
  intro l
  induction l with
  | nil => rfl
  | cons x xs ih => simp [dropPositions, decrPos, ih]

/-- `dropPositions` only depends on the membership set of positions. -/
theorem dropPositions_congr :
    ∀ (l : List FailureRecord) (S T : List Nat), (∀ k, k ∈ S ↔ k ∈ T) →
      dropPositions l S = dropPositions l T := by
  intro l
  induction l with
  | nil => intro S T _; rfl
  | cons x xs ih =>
    intro S T h
    have hd : ∀ k, k ∈ decrPos S ↔ k ∈ decrPos T := by
      intro k
      rw [mem_decrPos, mem_decrPos]
      exact h (k + 1)
    simp only [dropPositions]
    by_cases hS : 0 ∈ S
    · rw [if_pos hS, if_pos ((h 0).mp hS), ih _ _ hd]
    · rw [if_neg hS, if_neg (fun ht => hS ((h 0).mpr ht)), ih _ _ hd]

/-- Popping position `j` and then dropping positions below `j` equals
dropping all of them from the original list. -/
theorem dropPositions_take_drop :
    ∀ (l : List FailureRecord) (j : Nat) (S : List Nat),
      j < l.length → (∀ k ∈ S, k < j) →
      dropPositions (l.take j ++ l.drop (j + 1)) S = dropPositions l (j :: S) := by
  intro l
  induction l with
  | nil => intro j S hj _; exact absurd hj (by simp)
  | cons x xs ih =>
    intro j S hj hS
    cases j with
    | zero =>
      have hSnil : ∀ k, k ∈ S ↔ k ∈ ([] : List Nat) := by
        intro k
        constructor
        · intro hk; exact absurd (hS k hk) (by omega)
        · intro hk; exact absurd hk (by simp)
      have hdnil : ∀ k, k ∈ decrPos (0 :: S) ↔ k ∈ ([] : List Nat) := by
        intro k
        rw [mem_decrPos]
        constructor
        · intro hk
          rcases List.mem_cons.mp hk with h | h
          · omega
          · exact absurd (hS _ h) (by omega)
        · intro hk; exact absurd hk (by simp)
      simp only [List.take_zero, List.nil_append, List.drop_succ_cons, List.drop_zero]
      rw [dropPositions_congr xs S [] hSnil, dropPositions_nil]
      show xs = dropPositions (x :: xs) (0 :: S)
      simp only [dropPositions, if_pos (List.mem_cons_self 0 S)]
      rw [dropPositions_congr xs _ [] hdnil, dropPositions_nil]
    | succ j =>
      have hj' : j < xs.length := by
        simp only [List.length_cons] at hj
        omega
      have hS' : ∀ k ∈ decrPos S, k < j := by
        intro k hk
        have := hS (k + 1) (mem_decrPos.mp hk)
        omega
      have hdec : decrPos ((j + 1) :: S) = j :: decrPos S := by
        simp [decrPos, List.filterMap_cons]
      have h0mem : (0 ∈ ((j + 1) :: S)) ↔ (0 ∈ S) := by
        constructor
        · intro h
          rcases List.mem_cons.mp h with h | h
          · omega
          · exact h
        · exact fun h => List.mem_cons_of_mem _ h
      rw [List.take_succ_cons, List.drop_succ_cons, List.cons_append]
      simp only [dropPositions]
      by_cases h0 : 0 ∈ S
      · rw [if_pos h0, if_pos (h0mem.mpr h0), hdec, ih j (decrPos S) hj' hS']
      · rw [if_neg h0, if_neg (fun h => h0 (h0mem.mp h)), hdec, ih j (decrPos S) hj' hS']

/-- The removal loop on a descending index list whose valid members are
pairwise distinct: it removes exactly the records at the valid parsed
positions of the ORIGINAL registry (snapshot semantics) and collects
them, in the loop's order, read from the original registry. -/
theorem popValid_eq :
    ∀ (js : List Int) (reg : List FailureRecord),
      List.Sorted (fun a b : Int => a ≥ b) js →
      (validList reg.length js).Nodup →
      popValid reg js
        = (dropPositions reg ((validList reg.length js).map Int.toNat),
           (validList reg.length js).map (fun i => reg.getD i.toNat dummyRec)) := by
  intro js
  induction js with
  | nil =>
    intro reg _ _
    simp [popValid, validList, dropPositions_nil]
  | cons j rest ih =>
    intro reg hsort hnd
    obtain ⟨hall, hsort'⟩ := List.sorted_cons.mp hsort
    by_cases h : 0 ≤ j ∧ j.toNat < reg.length
    · -- the head index is in range and gets popped
      have hfc : validList reg.length (j :: rest) = j :: validList reg.length rest := by
        unfold validList
        rw [List.filter_cons_of_pos]
        simp only [Bool.and_eq_true, decide_eq_true_eq]
        omega
      rw [hfc] at hnd ⊢
      obtain ⟨hjnot, hnd'⟩ := List.nodup_cons.mp hnd
      have hVlt : ∀ i ∈ validList reg.length rest, i < j := by
        intro i hi
        obtain ⟨hmem, hi0, hilen⟩ := mem_validList.mp hi
        have hine : i ≠ j := by
          intro he
          exact hjnot (he ▸ hi)
        have := hall i hmem
        omega
      have hlen' : (reg.take j.toNat ++ reg.drop (j.toNat + 1)).length = reg.length - 1 := by
        rw [List.length_append, List.length_take, List.length_drop]
        have := h.2
        omega
      have hrest_valid :
          validList (reg.take j.toNat ++ reg.drop (j.toNat + 1)).length rest
            = validList reg.length rest := by
        rw [hlen']
        unfold validList
        apply List.filter_congr
        intro k hk
        by_cases h0 : (0 : Int) ≤ k
        · by_cases hkl : k < (reg.length : Int)
          · have hkv : k ∈ validList reg.length rest :=
              mem_validList.mpr ⟨hk, h0, hkl⟩
            have hklt := hVlt k hkv
            have e1 : decide (k < ((reg.length - 1 : Nat) : Int))
                = decide (k < (reg.length : Int)) := by
              apply decide_eq_decide.mpr
              have := h.1
              have := h.2
              omega
            rw [e1]
          · have e1 : decide (k < ((reg.length - 1 : Nat) : Int))
                = decide (k < (reg.length : Int)) := by
              apply decide_eq_decide.mpr
              omega
            rw [e1]
        · have e0 : decide ((0 : Int) ≤ k) = false := by
            simp [h0]
          rw [e0]
          simp
      have hmain := ih (reg.take j.toNat ++ reg.drop (j.toNat + 1)) hsort'
        (by rw [hrest_valid]; exact hnd')
      rw [hrest_valid] at hmain
      have hSmap : ∀ m ∈ (validList reg.length rest).map Int.toNat, m < j.toNat := by
        intro m hm
        obtain ⟨i, hi, rfl⟩ := List.mem_map.mp hm
        obtain ⟨_, hi0, _⟩ := mem_validList.mp hi
        have := hVlt i hi
        omega
      simp only [popValid, dif_pos h, hmain, List.map_cons]
      rw [Prod.mk.injEq]
      refine ⟨dropPositions_take_drop reg j.toNat _ h.2 hSmap, ?_⟩
      rw [get_eq_getD dummyRec reg j.toNat h.2]
      congr 1
      apply List.map_congr_left
      intro i hi
      obtain ⟨_, hi0, _⟩ := mem_validList.mp hi
      have := hVlt i hi
      exact getD_take_append_drop dummyRec reg j.toNat i.toNat (by omega)
    · -- the head index is skipped by the range test
      have hfc : validList reg.length (j :: rest) = validList reg.length rest := by
        unfold validList
        rw [List.filter_cons_of_neg]
        simp only [Bool.and_eq_true, decide_eq_true_eq, not_and]
        intro h0 hlt
        exact absurd ⟨h0, by omega⟩ h
      rw [hfc] at hnd ⊢
      simp only [popValid, dif_neg h]
      exact ih reg hsort' hnd

/-- C3: for a selection whose valid indices are pairwise distinct,
`retry selected` has snapshot semantics — non-numeric tokens and
out-of-range indices are ignored (only the valid parsed indices act);
the remaining registry is the pre-call registry with exactly the
selected positions removed; and the retried records are exactly the
records at the selected positions of the PRE-call registry, in
ascending position order.  On the concrete three-record registry,
selecting "2,1" removes records 1 and 2, leaves record 3, and retries
record 1 then record 2. -/
theorem retry_selected_snapshot_semantics :
    (∀ (fetch : Fetch) (reg : List FailureRecord) (choice : String),
      (validList reg.length (parseIdxs choice)).Nodup →
      (retry_selected fetch reg choice).remaining
          = dropPositions reg ((validList reg.length (parseIdxs choice)).map Int.toNat)
        ∧ (retry_selected fetch reg choice).retried
          = (List.insertionSort (fun a b : Int => a ≤ b)
                (validList reg.length (parseIdxs choice))).map
              (fun i => reg.getD i.toNat dummyRec))
    ∧ ((retry_selected fetchNone [recAudio1, recAudio2, recVideoOnly] "2,1").remaining
          = [recVideoOnly]
        ∧ (retry_selected fetchNone [recAudio1, recAudio2, recVideoOnly] "2,1").retried
          = [recAudio1, recAudio2]) := by
  constructor
  · intro fetch reg choice hnd
    have hperm : (validList reg.length (sortDesc (parseIdxs choice))).Perm
        (validList reg.length (parseIdxs choice)) :=
      List.Perm.filter _ (List.perm_insertionSort (fun a b : Int => a ≥ b) (parseIdxs choice))
    have hsorted : List.Sorted (fun a b : Int => a ≥ b) (sortDesc (parseIdxs choice)) :=
      List.sorted_insertionSort (fun a b : Int => a ≥ b) (parseIdxs choice)
    have hndS : (validList reg.length (sortDesc (parseIdxs choice))).Nodup :=
      (hperm.nodup_iff).mpr hnd
    have hpop := popValid_eq (sortDesc (parseIdxs choice)) reg hsorted hndS
    constructor
    · show (popValid reg (sortDesc (parseIdxs choice))).1
          = dropPositions reg ((validList reg.length (parseIdxs choice)).map Int.toNat)
      rw [hpop]
      apply dropPositions_congr
      intro k
      constructor
      · intro hk
        obtain ⟨i, hi, rfl⟩ := List.mem_map.mp hk
        exact List.mem_map_of_mem _ (hperm.mem_iff.mp hi)
      · intro hk
        obtain ⟨i, hi, rfl⟩ := List.mem_map.mp hk
        exact List.mem_map_of_mem _ (hperm.mem_iff.mpr hi)
    · show (popValid reg (sortDesc (parseIdxs choice))).2.reverse
          = (List.insertionSort (fun a b : Int => a ≤ b)
                (validList reg.length (parseIdxs choice))).map
              (fun i => reg.getD i.toNat dummyRec)
      rw [hpop]
      rw [← List.map_reverse]
      congr 1
      apply List.eq_of_perm_of_sorted (r := fun a b : Int => a ≤ b)
      · exact ((validList reg.length (sortDesc (parseIdxs choice))).reverse_perm.trans
          hperm).trans (List.perm_insertionSort _ _).symm
      · apply List.pairwise_reverse.mpr
        exact List.Pairwise.sublist (List.filter_sublist _) hsorted
      · exact List.sorted_insertionSort _ _
  · exact ⟨rfl, rfl⟩

/-- C3 witness: the general snapshot-semantics law applied to the
concrete three-record registry with the selection "2,1", whose valid
indices are distinct. -/
theorem retry_selected_snapshot_semantics_witness :
    (retry_selected fetchNone [recAudio1, recAudio2, recVideoOnly] "2,1").remaining
        = dropPositions [recAudio1, recAudio2, recVideoOnly]
            ((validList (List.length [recAudio1, recAudio2, recVideoOnly])
                (parseIdxs "2,1")).map Int.toNat)
      ∧ (retry_selected fetchNone [recAudio1, recAudio2, recVideoOnly] "2,1").retried
        = (List.insertionSort (fun a b : Int => a ≤ b)
              (validList (List.length [recAudio1, recAudio2, recVideoOnly])
                (parseIdxs "2,1"))).map
            (fun i => [recAudio1, recAudio2, recVideoOnly].getD i.toNat dummyRec) :=
  retry_selected_snapshot_semantics.1 fetchNone [recAudio1, recAudio2, recVideoOnly] "2,1"
    (by decide)
